import Mathlib

/-!
Verification of the `pagination` package of the `api-utils` repository
(file `pagination/pagination.go`): the query-string tokenizers, the SQL
identifier quoter, the clause builders (between, sort), and the pagination
arithmetic (`Count`, `Offset`).

Go strings are embedded as `List Char`.  The GORM query-builder object is
embedded as an explicit state (`DB`) that records, in order, the accumulated
errors (`AddError`), the WHERE fragments (`Where`) and the ORDER BY fragments
(`Order`).  Go's `map[string]string` (and `map[string][]string`) is embedded
as an association list with overwrite-on-insert, which realises the
last-write-wins semantics of Go map assignment; iteration over the map is
embedded as iteration in insertion order (Go's iteration order is
unspecified, and no property below depends on it beyond multiset content).
A Go runtime panic (out-of-range slice index) is embedded as a `Bool` flag
that aborts the remaining iteration.
-/

namespace ApiUtils

/-- Go strings, embedded as lists of characters. -/
abbrev Str := List Char

/-- Whitespace predicate used by Go's `strings.TrimSpace` (ASCII part of
`unicode.IsSpace`: space, tab, newline, vertical tab, form feed, carriage
return). -/
def goIsSpace (c : Char) : Bool :=
  c = ' ' || c = '\t' || c = '\n' || c = '\x0b' || c = '\x0c' || c = '\r'

/-- `strings.TrimSpace`, left part. -/
def trimLeft (s : Str) : Str := s.dropWhile goIsSpace

/-- `strings.TrimSpace`, right part. -/
def trimRight (s : Str) : Str := (s.reverse.dropWhile goIsSpace).reverse

/-- Go `strings.TrimSpace`. -/
def goTrimSpace (s : Str) : Str := trimRight (trimLeft s)

/-- Go `strings.Split s sep` for a single-character separator `sep`
(all separators used by the pagination package are single characters).
`strings.Split "" sep = [""]`, and the result never is the empty list. -/
def splitChar (sep : Char) : Str → List Str
  | [] => [[]]
  | c :: rest =>
    match splitChar sep rest with
    | [] => [[c]]
    | s :: ss => if c = sep then [] :: s :: ss else (c :: s) :: ss

/-- Go `strings.SplitN s sep 2` for a single-character separator: split at
the first occurrence only. -/
def splitN2 (sep : Char) : Str → List Str
  | [] => [[]]
  | c :: rest =>
    if c = sep then [[], rest]
    else
      match splitN2 sep rest with
      | [] => [[c]]
      | s :: ss => (c :: s) :: ss

/-- Go `strings.ReplaceAll s "\"" ""`: removing every double-quote character
is filtering them out. -/
def removeQuotes (s : Str) : Str := s.filter (fun c => c ≠ '"')

/-- Association-list embedding of a Go `map` keyed by strings: assignment
overwrites the existing entry in place, otherwise appends. -/
def mapInsert (k : Str) (v : α) : List (Str × α) → List (Str × α)
  | [] => [(k, v)]
  | (k', v') :: rest => if k' = k then (k, v) :: rest else (k', v') :: mapInsert k v rest

/-- Lookup in the association-list embedding of a Go map. -/
def mapLookup (k : Str) : List (Str × α) → Option α
  | [] => none
  | (k', v) :: rest => if k' = k then some v else mapLookup k rest

/-- The observable state of the GORM `*gorm.DB` query builder: accumulated
errors (`AddError`), WHERE-clause SQL fragments (`Where`), ORDER BY fragments
(`Order`), each in call order. -/
structure DB where
  errors : List Str
  wheres : List Str
  orders : List Str
deriving DecidableEq, Repr

/-- The pristine query builder handed to the pagination functions. -/
def DB.empty : DB := ⟨[], [], []⟩

/-- `db.AddError(errors.New e)`. -/
def DB.addError (db : DB) (e : Str) : DB := { db with errors := db.errors ++ [e] }

/-- `db.Where(fragment, binds...)`; only the SQL fragment is recorded. -/
def DB.addWhere (db : DB) (w : Str) : DB := { db with wheres := db.wheres ++ [w] }

/-- `db.Order(fragment)`. -/
def DB.addOrder (db : DB) (o : Str) : DB := { db with orders := db.orders ++ [o] }

/-- `errors.New("cannot parse invalid format")`. -/
def errInvalidFormat : Str := "cannot parse invalid format".toList

/-- `errors.New("column not allowed")`. -/
def errNotAllowed : Str := "column not allowed".toList

/-- `errors.New("not exactly two values for between query")`. -/
def errNotTwoValues : Str := "not exactly two values for between query".toList

/-- `errors.New("invalid date-time format")`. -/
def errInvalidDateTime : Str := "invalid date-time format".toList

/-- `errors.New("order not asc or desc")`. -/
def errOrderNotAscDesc : Str := "order not asc or desc".toList

/-- `parseColumn` (pagination.go): trim the whole string, return `""` (two
quote characters) when empty, strip every existing double quote, split on
`.`, trim each part, quote each part (an empty part becomes the quoted-empty
token), and rejoin with `.`. -/
def parseColumn (column : Str) : Str :=
  let cleaned := goTrimSpace column
  if cleaned = [] then ['"', '"']
  else
    let cleaned := removeQuotes cleaned
    let parts := splitChar '.' cleaned
    let parts := parts.map (fun p =>
      let p := goTrimSpace p
      if p = [] then ['"', '"'] else '"' :: p ++ ['"'])
    List.intercalate ['.'] parts

/-- One iteration of the clause loop of `parseSingleValueParams`: split the
clause on every `:`; malformed (not exactly 2 parts, or empty key) records
`errInvalidFormat`; an empty value is skipped silently; a key outside the
allow-list records `errNotAllowed`; otherwise `paramMap[key] = val`. -/
def singleStep (allowedColumns : Str → Bool) (acc : DB × List (Str × Str)) (clause : Str) :
    DB × List (Str × Str) :=
  match splitChar ':' clause with
  | [key, val] =>
    if key = [] then (acc.1.addError errInvalidFormat, acc.2)
    else if val = [] then acc
    else if allowedColumns key then (acc.1, mapInsert key val acc.2)
    else (acc.1.addError errNotAllowed, acc.2)
  | _ => (acc.1.addError errInvalidFormat, acc.2)

/-- `parseSingleValueParams` (pagination.go): empty input yields the empty
map and touches nothing; otherwise the input is split on `,` and each clause
processed by `singleStep`. Returns the mutated `db` and the built map. -/
def parseSingleValueParams (db : DB) (params : Str) (allowedColumns : Str → Bool) :
    DB × List (Str × Str) :=
  if params = [] then (db, [])
  else (splitChar ',' params).foldl (singleStep allowedColumns) (db, [])

/-- One iteration of the clause loop of `parseMultiValueParams`: split the
clause on the first `:` only; same malformed / empty-value / allow-list
policy as `singleStep`; the value part is split on `;` before insertion. -/
def multiStep (allowedColumns : Str → Bool) (acc : DB × List (Str × List Str)) (clause : Str) :
    DB × List (Str × List Str) :=
  match splitN2 ':' clause with
  | [key, val] =>
    if key = [] then (acc.1.addError errInvalidFormat, acc.2)
    else if val = [] then acc
    else if allowedColumns key then (acc.1, mapInsert key (splitChar ';' val) acc.2)
    else (acc.1.addError errNotAllowed, acc.2)
  | _ => (acc.1.addError errInvalidFormat, acc.2)

/-- `parseMultiValueParams` (pagination.go). -/
def parseMultiValueParams (db : DB) (params : Str) (allowedColumns : Str → Bool) :
    DB × List (Str × List Str) :=
  if params = [] then (db, [])
  else (splitChar ',' params).foldl (multiStep allowedColumns) (db, [])

/-- One iteration of the map loop of `parseSortBy`: `"desc"` and `"asc"`
add `parseColumn key DESC` / `parseColumn key ASC` ordering clauses, any
other value records `errOrderNotAscDesc`. -/
def sortStep (db : DB) (kv : Str × Str) : DB :=
  if kv.2 = "desc".toList then db.addOrder (parseColumn kv.1 ++ " DESC".toList)
  else if kv.2 = "asc".toList then db.addOrder (parseColumn kv.1 ++ " ASC".toList)
  else db.addError errOrderNotAscDesc

/-- `parseSortBy` (pagination.go): tokenize with `parseSingleValueParams`,
then process each map entry with `sortStep`. -/
def parseSortBy (params : Str) (db : DB) (allowedColumns : Str → Bool) : DB :=
  let r := parseSingleValueParams db params allowedColumns
  r.2.foldl sortStep r.1

/-- One iteration of the map loop of `parseSearchBetween`, parametrised by
the external `time.Parse(time.RFC3339, ·)` collaborator (`rfc3339Ok s` holds
iff the parse returns no error).  A value list whose length is not 2 records
`errNotTwoValues`; then Go evaluates `value[0]` and `value[1]`, so a list
shorter than 2 raises an index-out-of-range panic (returned flag `true`)
with the state as mutated so far; otherwise a parse failure on either bound
records `errInvalidDateTime`, and the BETWEEN predicate is added. -/
def betweenStep (rfc3339Ok : Str → Bool) (db : DB) (kv : Str × List Str) : DB × Bool :=
  let db := if kv.2.length ≠ 2 then db.addError errNotTwoValues else db
  match kv.2.get? 0, kv.2.get? 1 with
  | some v0, some v1 =>
    let db := if rfc3339Ok v0 && rfc3339Ok v1 then db else db.addError errInvalidDateTime
    (db.addWhere (parseColumn kv.1 ++ " BETWEEN ? AND ?".toList), false)
  | _, _ => (db, true)

/-- `parseSearchBetween` (pagination.go): tokenize with
`parseMultiValueParams`, then process each map entry with `betweenStep`.
The `Bool` of the result is `true` when the loop panicked (a Go panic
unwinds the whole call, so the remaining iterations do not run). -/
def parseSearchBetween (rfc3339Ok : Str → Bool) (params : Str) (db : DB)
    (allowedColumns : Str → Bool) : DB × Bool :=
  let r := parseMultiValueParams db params allowedColumns
  r.2.foldl (fun acc kv => if acc.2 then acc else betweenStep rfc3339Ok acc.1 kv) (r.1, false)

/-- Outcome of one single-value clause according to the spec's tokenizer
algorithm (§4.1): record an error, skip silently, or insert a key/value
pair. -/
inductive SpecOutcome where
  | err (e : Str)
  | skip
  | insert (key val : Str)
deriving DecidableEq, Repr

/-- Per the spec's algorithm (§4.1, steps 3–7), single-value case: the
clause is split on every `:`; malformed (the split does not yield exactly 2
parts with a non-empty key) records a "cannot parse invalid format" error;
an empty value is silently skipped; a key not in the allow-list records a
"column not allowed" error; otherwise `key → rest` is inserted. -/
def specClassify (allowedColumns : Str → Bool) (clause : Str) : SpecOutcome :=
  match splitChar ':' clause with
  | [key, rest] =>
    if key = [] then .err errInvalidFormat
    else if rest = [] then .skip
    else if allowedColumns key then .insert key rest
    else .err errNotAllowed
  | _ => .err errInvalidFormat

/-- The error recorded by a spec outcome, if any. -/
def SpecOutcome.errOf : SpecOutcome → Option Str
  | .err e => some e
  | _ => none

/-- The effect of a spec outcome on the result mapping. -/
def SpecOutcome.apply (m : List (Str × Str)) : SpecOutcome → List (Str × Str)
  | .insert k v => mapInsert k v m
  | _ => m

/-- The spec's single-value tokenizer (§4.1), stated denotationally: an
empty raw string yields the empty mapping and no error; otherwise the
errors of all clauses are accumulated in clause order, and the mapping is
built by performing the surviving insertions in clause order
(last-write-wins). -/
def specSingleValueParams (db : DB) (params : Str) (allowedColumns : Str → Bool) :
    DB × List (Str × Str) :=
  if params = [] then (db, [])
  else
    let outcomes := (splitChar ',' params).map (specClassify allowedColumns)
    ({ db with errors := db.errors ++ outcomes.filterMap SpecOutcome.errOf },
     outcomes.foldl SpecOutcome.apply [])

/-- Two's-complement wrap-around of Go's 64-bit `int`. -/
def wrap64 (n : ℤ) : ℤ := (n + 2 ^ 63) % 2 ^ 64 - 2 ^ 63

/-- `Offset` (pagination.go): `(page - 1) * limit` in Go `int` arithmetic. -/
def Offset (page limit : ℤ) : ℤ := wrap64 (wrap64 (page - 1) * limit)

/-- Binary exponent of a positive rational: the unique `e` with
`2 ^ e ≤ q < 2 ^ (e + 1)` (see `qexp_spec`). -/
def qexp (q : ℚ) : ℤ :=
  let c : ℤ := (Nat.log 2 q.num.natAbs : ℤ) - (Nat.log 2 q.den : ℤ)
  if (2 : ℚ) ^ c ≤ q then c else c - 1

/-- Round a rational to the nearest integer, ties to even. -/
def nearestEven (m : ℚ) : ℤ :=
  if m - ⌊m⌋ < 1 / 2 then ⌊m⌋
  else if 1 / 2 < m - ⌊m⌋ then ⌊m⌋ + 1
  else if 2 ∣ ⌊m⌋ then ⌊m⌋ else ⌊m⌋ + 1

/-- IEEE-754 binary64 rounding of a positive rational: scale into the
53-bit significand range `[2^52, 2^53)`, round to the nearest integer with
ties to even, and scale back.  Normal range only — overflow and subnormals
are far outside the values `Count` can produce. -/
def roundPos (q : ℚ) : ℚ :=
  (nearestEven (q * 2 ^ ((52 : ℤ) - qexp q)) : ℚ) * 2 ^ (qexp q - 52)

/-- Round-to-nearest-even to binary64, extended to all rationals by sign. -/
def roundF64 (q : ℚ) : ℚ :=
  if q = 0 then 0 else if 0 < q then roundPos q else -roundPos (-q)

/-- Go `float64(n)` conversion of a 64-bit integer (IEEE 754
round-to-nearest-even). -/
def float64OfInt (n : ℤ) : ℚ := roundF64 (n : ℚ)

/-- Go float64 division, correctly rounded per IEEE 754.  Division by zero
(±Inf/NaN in Go) is outside the model; `Count` is only claimed for
`limit > 0`. -/
def f64Div (a b : ℚ) : ℚ := roundF64 (a / b)

/-- Go `math.Ceil` on a finite float64: the exact ceiling (which is always
itself representable, so no re-rounding occurs). -/
def f64Ceil (q : ℚ) : ℚ := (⌈q⌉ : ℚ)

/-- Go `int(x)` conversion of a float64 value: truncation toward zero. -/
def intOfF64 (q : ℚ) : ℤ := if 0 ≤ q then ⌊q⌋ else ⌈q⌉

/-- `Count` (pagination.go):
`int(math.Ceil(float64(resultCount) / float64(limit)))`. -/
def Count (resultCount limit : ℤ) : ℤ :=
  intOfF64 (f64Ceil (f64Div (float64OfInt resultCount) (float64OfInt limit)))

/-- Concrete allow-list `{a}`. -/
def allowA : Str → Bool := fun k => k = "a".toList

/-- Concrete allow-list `{name, age}`. -/
def allowNameAge : Str → Bool := fun k => k = "name".toList || k = "age".toList

/-- Concrete allow-list `{created_at}`. -/
def allowCreatedAt : Str → Bool := fun k => k = "created_at".toList

/-- A concrete stand-in for the external `time.Parse(time.RFC3339, ·)`
collaborator that rejects every string.  Used only on execution paths that
never consult the parser. -/
def rfc3339Never : Str → Bool := fun _ => false

/-! ### Helper lemmas -/

theorem mapLookup_mapInsert (k k' : Str) (v : α) (m : List (Str × α)) :
    mapLookup k (mapInsert k' v m) = if k' = k then some v else mapLookup k m := by
  induction m with
  | nil => simp [mapInsert, mapLookup]
  | cons kv rest ih =>
    obtain ⟨k0, v0⟩ := kv
    by_cases h1 : k0 = k' <;> by_cases h2 : k' = k <;>
      simp_all [mapInsert, mapLookup]

theorem singleStep_classify (allowed : Str → Bool) (acc : DB × List (Str × Str)) (c : Str) :
    singleStep allowed acc c =
      ((specClassify allowed c).errOf.elim acc.1 acc.1.addError,
       (specClassify allowed c).apply acc.2) := by
  unfold singleStep specClassify
  rcases h : splitChar ':' c with _ | ⟨key, _ | ⟨val, _ | _⟩⟩ <;>
    simp [SpecOutcome.errOf, SpecOutcome.apply]
  split_ifs <;> simp [SpecOutcome.errOf, SpecOutcome.apply]

theorem foldl_singleStep (allowed : Str → Bool) (cs : List Str) (db : DB)
    (m : List (Str × Str)) :
    cs.foldl (singleStep allowed) (db, m) =
      ({ db with errors := db.errors ++
          ((cs.map (specClassify allowed)).filterMap SpecOutcome.errOf) },
       (cs.map (specClassify allowed)).foldl SpecOutcome.apply m) := by
  induction cs generalizing db m with
  | nil => simp
  | cons c cs ih =>
    simp only [List.foldl_cons, List.map_cons, List.filterMap_cons, singleStep_classify]
    rcases hc : specClassify allowed c with e | _ | ⟨k, v⟩ <;>
      simp [SpecOutcome.errOf, SpecOutcome.apply, DB.addError, ih]

theorem mapLookup_foldl_apply (os : List SpecOutcome) (m : List (Str × Str)) (k : Str)
    (h : (∃ v, SpecOutcome.insert k v ∈ os) ∨ mapLookup k m ≠ none) :
    mapLookup k (os.foldl SpecOutcome.apply m) ≠ none := by
  induction os generalizing m with
  | nil =>
    rcases h with ⟨v, hv⟩ | h
    · simp at hv
    · simpa using h
  | cons o os ih =>
    simp only [List.foldl_cons]
    apply ih
    rcases h with ⟨v, hv⟩ | h
    · rcases List.mem_cons.mp hv with rfl | hv
      · right
        simp [SpecOutcome.apply, mapLookup_mapInsert]
      · exact Or.inl ⟨v, hv⟩
    · right
      rcases o with e | _ | ⟨k', v'⟩ <;> simp [SpecOutcome.apply, mapLookup_mapInsert]
      · exact h
      · exact h
      · split <;> simp_all

theorem splitChar_eq_single (sep : Char) (s : Str) (h : sep ∉ s) :
    splitChar sep s = [s] := by
  induction s with
  | nil => rfl
  | cons c rest ih =>
    have hc : ¬c = sep := fun hcs => h (hcs ▸ List.mem_cons_self c rest)
    have hr : sep ∉ rest := fun hm => h (List.mem_cons_of_mem c hm)
    simp [splitChar, ih hr, hc]

theorem splitChar_append_sep (sep : Char) (key : Str) (h : sep ∉ key) :
    splitChar sep (key ++ [sep]) = [key, []] := by
  induction key with
  | nil => simp [splitChar]
  | cons c rest ih =>
    have hc : ¬c = sep := fun hcs => h (hcs ▸ List.mem_cons_self c rest)
    have hr : sep ∉ rest := fun hm => h (List.mem_cons_of_mem c hm)
    simp [splitChar, ih hr, hc]

theorem mem_of_mem_splitChar (sep : Char) (s p : Str) (hp : p ∈ splitChar sep s)
    (c : Char) (hc : c ∈ p) : c ∈ s := by
  induction s generalizing p with
  | nil =>
    simp [splitChar] at hp
    subst hp
    simp at hc
  | cons a rest ih =>
    simp only [splitChar] at hp
    rcases hsp : splitChar sep rest with _ | ⟨s0, ss⟩
    · simp [hsp] at hp
      subst hp
      rcases List.mem_cons.mp hc with rfl | hc
      · exact List.mem_cons_self _ _
      · simp at hc
    · rw [hsp] at hp
      by_cases ha : a = sep
      · simp only [ha, if_pos rfl] at hp
        rcases List.mem_cons.mp hp with rfl | hp
        · simp at hc
        · exact List.mem_cons_of_mem _ (ih p (hsp ▸ hp) hc)
      · simp only [if_neg ha] at hp
        rcases List.mem_cons.mp hp with rfl | hp
        · rcases List.mem_cons.mp hc with rfl | hc
          · exact List.mem_cons_self _ _
          · exact List.mem_cons_of_mem _ (ih s0 (hsp ▸ List.mem_cons_self s0 ss) hc)
        · exact List.mem_cons_of_mem _ (ih p (hsp ▸ List.mem_cons_of_mem s0 hp) hc)

theorem wrap64_id (n : ℤ) (h1 : -(2 ^ 63) ≤ n) (h2 : n < 2 ^ 63) : wrap64 n = n := by
  unfold wrap64
  omega

theorem dropWhile_dropWhile (p : α → Bool) (l : List α) :
    List.dropWhile p (List.dropWhile p l) = List.dropWhile p l := by
  induction l with
  | nil => rfl
  | cons c rest ih =>
    by_cases h : p c <;> simp [List.dropWhile_cons, h, ih]

theorem trimLeft_trimLeft (s : Str) : trimLeft (trimLeft s) = trimLeft s :=
  dropWhile_dropWhile goIsSpace s

theorem trimRight_leading (s : Str) : trimRight s <+: s := by
  have h : (trimRight s).reverse <:+ s.reverse := by
    unfold trimRight
    rw [List.reverse_reverse]
    exact List.dropWhile_suffix goIsSpace
  exact List.reverse_suffix.mp h

theorem trimLeft_of_leading (l s : Str) (hp : l <+: s) (hs : trimLeft s = s) :
    trimLeft l = l := by
  rcases l with _ | ⟨a, l'⟩
  · rfl
  · obtain ⟨t, ht⟩ := hp
    have ha : goIsSpace a = false := by
      by_contra hcon
      have ha' : goIsSpace a = true := by
        cases hga : goIsSpace a
        · exact absurd hga hcon
        · rfl
      have heq : trimLeft s = trimLeft (l' ++ t) := by
        rw [← ht]
        simp [trimLeft, List.dropWhile_cons, ha']
      have hlen : (trimLeft (l' ++ t)).length ≤ (l' ++ t).length :=
        (List.dropWhile_sublist goIsSpace).length_le
      rw [hs] at heq
      have hlen2 : s.length ≤ (l' ++ t).length := by
        rw [heq]
        exact hlen
      have hlen3 : (a :: l' ++ t).length = s.length := by rw [ht]
      simp [List.length_append] at hlen2 hlen3
      omega
    simp [trimLeft, List.dropWhile_cons, ha]

theorem goTrimSpace_idem (s : Str) : goTrimSpace (goTrimSpace s) = goTrimSpace s := by
  unfold goTrimSpace
  have h1 : trimLeft (trimRight (trimLeft s)) = trimRight (trimLeft s) :=
    trimLeft_of_leading _ _ (trimRight_leading (trimLeft s)) (trimLeft_trimLeft s)
  rw [h1]
  unfold trimRight
  rw [List.reverse_reverse, dropWhile_dropWhile]

theorem mem_of_mem_trimLeft (c : Char) (s : Str) (h : c ∈ trimLeft s) : c ∈ s :=
  (List.dropWhile_sublist goIsSpace).subset h

theorem mem_of_mem_trimRight (c : Char) (s : Str) (h : c ∈ trimRight s) : c ∈ s := by
  unfold trimRight at h
  rw [List.mem_reverse] at h
  exact List.mem_reverse.mp ((List.dropWhile_sublist goIsSpace).subset h)

theorem mem_of_mem_goTrimSpace (c : Char) (s : Str) (h : c ∈ goTrimSpace s) : c ∈ s :=
  mem_of_mem_trimLeft c s (mem_of_mem_trimRight c (trimLeft s) h)

theorem goTrimSpace_quote (p : Str) :
    goTrimSpace ('"' :: (p ++ ['"'])) = '"' :: (p ++ ['"']) := by
  unfold goTrimSpace
  have h1 : trimLeft ('"' :: (p ++ ['"'])) = '"' :: (p ++ ['"']) := by
    simp [trimLeft, List.dropWhile_cons, goIsSpace]
  rw [h1]
  unfold trimRight
  have h2 : ('"' :: (p ++ ['"'])).reverse = '"' :: (p.reverse ++ ['"']) := by
    simp
  rw [h2]
  have h3 : List.dropWhile goIsSpace ('"' :: (p.reverse ++ ['"'])) =
      '"' :: (p.reverse ++ ['"']) := by
    simp [List.dropWhile_cons, goIsSpace]
  rw [h3, ← h2, List.reverse_reverse]

theorem mem_of_mem_removeQuotes (c : Char) (s : Str) (h : c ∈ removeQuotes s) : c ∈ s := by
  unfold removeQuotes at h
  exact (List.mem_filter.mp h).1

theorem not_quote_mem_removeQuotes (s : Str) : '"' ∉ removeQuotes s := by
  intro h
  unfold removeQuotes at h
  have := (List.mem_filter.mp h).2
  simp at this

theorem removeQuotes_quote (p : Str) (hq : '"' ∉ p) :
    removeQuotes ('"' :: (p ++ ['"'])) = p := by
  unfold removeQuotes
  simp only [List.filter_cons, List.filter_append]
  simp
  intro a ha hcon
  exact hq (hcon ▸ ha)

theorem parseColumn_single (x : Str) (hdot : '.' ∉ x) :
    parseColumn x =
      (if goTrimSpace (removeQuotes (goTrimSpace x)) = [] then ['"', '"']
       else '"' :: (goTrimSpace (removeQuotes (goTrimSpace x)) ++ ['"'])) := by
  have hd : '.' ∉ removeQuotes (goTrimSpace x) := fun hm =>
    hdot (mem_of_mem_goTrimSpace '.' x (mem_of_mem_removeQuotes '.' _ hm))
  simp only [parseColumn, splitChar_eq_single '.' _ hd, List.map_cons, List.map_nil]
  by_cases h : goTrimSpace x = []
  · rw [if_pos h, h]
    rfl
  · rw [if_neg h]
    simp [List.intercalate]

theorem qexp_spec (q : ℚ) (hq : 0 < q) :
    (2 : ℚ) ^ qexp q ≤ q ∧ q < 2 ^ (qexp q + 1) := by
  have hnum : 0 < q.num := Rat.num_pos.mpr hq
  have hden : 0 < q.den := q.den_pos
  have ha1 : q.num.natAbs ≠ 0 := by omega
  have hb1 : q.den ≠ 0 := by omega
  have hna : ((q.num.natAbs : ℤ)) = q.num := Int.natAbs_of_nonneg hnum.le
  have hnaq : ((q.num.natAbs : ℚ)) = ((q.num : ℚ)) := by
    rw [← hna]
    exact (Int.cast_natCast _).symm
  have hq_eq : ((q.num.natAbs : ℚ)) / ((q.den : ℚ)) = q := by
    rw [hnaq]
    exact Rat.num_div_den q
  have hla1 : ((2 : ℚ) ^ Nat.log 2 q.num.natAbs) ≤ (q.num.natAbs : ℚ) := by
    exact_mod_cast Nat.pow_log_le_self 2 ha1
  have hla2 : ((q.num.natAbs : ℚ)) < (2 : ℚ) ^ (Nat.log 2 q.num.natAbs + 1) := by
    exact_mod_cast Nat.lt_pow_succ_log_self (by norm_num) q.num.natAbs
  have hlb1 : ((2 : ℚ) ^ Nat.log 2 q.den) ≤ ((q.den : ℚ)) := by
    exact_mod_cast Nat.pow_log_le_self 2 hb1
  have hlb2 : ((q.den : ℚ)) < (2 : ℚ) ^ (Nat.log 2 q.den + 1) := by
    exact_mod_cast Nat.lt_pow_succ_log_self (by norm_num) q.den
  have hbpos : (0 : ℚ) < (q.den : ℚ) := by exact_mod_cast hden
  have hpow1 : (2 : ℚ) ^ ((Nat.log 2 q.num.natAbs : ℤ) - (Nat.log 2 q.den : ℤ) + 1) *
      2 ^ ((Nat.log 2 q.den : ℤ)) = (2 : ℚ) ^ (Nat.log 2 q.num.natAbs + 1) := by
    rw [← zpow_add₀ (two_ne_zero (α := ℚ))]
    rw [show (Nat.log 2 q.num.natAbs : ℤ) - (Nat.log 2 q.den : ℤ) + 1 +
        (Nat.log 2 q.den : ℤ) = ((Nat.log 2 q.num.natAbs + 1 : ℕ) : ℤ) by push_cast; ring]
    rw [zpow_natCast]
  have hpow2 : (2 : ℚ) ^ ((Nat.log 2 q.num.natAbs : ℤ) - (Nat.log 2 q.den : ℤ) - 1) *
      (2 : ℚ) ^ (Nat.log 2 q.den + 1) = (2 : ℚ) ^ ((Nat.log 2 q.num.natAbs : ℤ)) := by
    rw [← zpow_natCast (2 : ℚ) (Nat.log 2 q.den + 1), ← zpow_add₀ (two_ne_zero (α := ℚ))]
    congr 1
    push_cast
    ring
  have hub : q < 2 ^ ((Nat.log 2 q.num.natAbs : ℤ) - (Nat.log 2 q.den : ℤ) + 1) := by
    have h' : ((q.num.natAbs : ℚ)) / ((q.den : ℚ)) <
        2 ^ ((Nat.log 2 q.num.natAbs : ℤ) - (Nat.log 2 q.den : ℤ) + 1) := by
      rw [div_lt_iff₀ hbpos]
      calc (q.num.natAbs : ℚ)
          < (2 : ℚ) ^ (Nat.log 2 q.num.natAbs + 1) := hla2
        _ = 2 ^ ((Nat.log 2 q.num.natAbs : ℤ) - (Nat.log 2 q.den : ℤ) + 1) *
              2 ^ ((Nat.log 2 q.den : ℤ)) := hpow1.symm
        _ ≤ 2 ^ ((Nat.log 2 q.num.natAbs : ℤ) - (Nat.log 2 q.den : ℤ) + 1) *
              (q.den : ℚ) := by
            apply mul_le_mul_of_nonneg_left _ (by positivity)
            calc (2 : ℚ) ^ ((Nat.log 2 q.den : ℤ)) = 2 ^ Nat.log 2 q.den := by
                  rw [zpow_natCast]
              _ ≤ (q.den : ℚ) := hlb1
    rw [hq_eq] at h'
    exact h'
  have hlb : 2 ^ ((Nat.log 2 q.num.natAbs : ℤ) - (Nat.log 2 q.den : ℤ) - 1) < q := by
    have h' : 2 ^ ((Nat.log 2 q.num.natAbs : ℤ) - (Nat.log 2 q.den : ℤ) - 1) <
        ((q.num.natAbs : ℚ)) / ((q.den : ℚ)) := by
      rw [lt_div_iff₀ hbpos]
      calc 2 ^ ((Nat.log 2 q.num.natAbs : ℤ) - (Nat.log 2 q.den : ℤ) - 1) * (q.den : ℚ)
          < 2 ^ ((Nat.log 2 q.num.natAbs : ℤ) - (Nat.log 2 q.den : ℤ) - 1) *
              (2 : ℚ) ^ (Nat.log 2 q.den + 1) := mul_lt_mul_of_pos_left hlb2 (by positivity)
        _ = (2 : ℚ) ^ ((Nat.log 2 q.num.natAbs : ℤ)) := hpow2
        _ ≤ (q.num.natAbs : ℚ) := by
            rw [zpow_natCast]
            exact hla1
    rw [hq_eq] at h'
    exact h'
  unfold qexp
  by_cases hc : (2 : ℚ) ^ ((Nat.log 2 q.num.natAbs : ℤ) - (Nat.log 2 q.den : ℤ)) ≤ q
  · rw [if_pos hc]
    exact ⟨hc, hub⟩
  · rw [if_neg hc]
    constructor
    · exact le_of_lt hlb
    · rw [show (Nat.log 2 q.num.natAbs : ℤ) - (Nat.log 2 q.den : ℤ) - 1 + 1 =
          (Nat.log 2 q.num.natAbs : ℤ) - (Nat.log 2 q.den : ℤ) by ring]
      exact lt_of_not_le hc

theorem qexp_unique (q : ℚ) (hq : 0 < q) (e : ℤ) (h1 : (2 : ℚ) ^ e ≤ q)
    (h2 : q < 2 ^ (e + 1)) : qexp q = e := by
  have hs := qexp_spec q hq
  by_contra hne
  rcases lt_or_gt_of_ne hne with hlt | hgt
  · have : (2 : ℚ) ^ (qexp q + 1) ≤ 2 ^ e := zpow_le_zpow_right₀ one_le_two (by omega)
    exact absurd (lt_of_lt_of_le hs.2 this) (not_lt.mpr h1)
  · have : (2 : ℚ) ^ (e + 1) ≤ 2 ^ qexp q := zpow_le_zpow_right₀ one_le_two (by omega)
    exact absurd (lt_of_lt_of_le h2 (le_trans this hs.1)) (lt_irrefl q)

theorem nearestEven_ge (m : ℚ) : m - 1 / 2 ≤ (nearestEven m : ℚ) := by
  unfold nearestEven
  have hfl := Int.floor_le m
  have hfl2 := Int.lt_floor_add_one m
  split_ifs with h1 h2 h3
  · linarith
  · rw [not_lt] at h1
    push_cast
    linarith
  · rw [not_lt] at h1 h2
    push_cast
    linarith
  · rw [not_lt] at h1 h2
    push_cast
    linarith

theorem nearestEven_le_ceil (m : ℚ) : nearestEven m ≤ ⌈m⌉ := by
  unfold nearestEven
  have h0 := Int.floor_le_ceil m
  have hc := Int.le_ceil m
  have key : ¬m - ⌊m⌋ < 1 / 2 → ⌊m⌋ + 1 ≤ ⌈m⌉ := by
    intro h1
    rw [not_lt] at h1
    by_contra hcon
    push_neg at hcon
    have : (⌈m⌉ : ℚ) ≤ (⌊m⌋ : ℚ) := by exact_mod_cast Int.lt_add_one_iff.mp hcon
    linarith
  split_ifs with h1 h2 h3
  · exact h0
  · exact key h1
  · exact h0
  · exact key h1

theorem floor_le_nearestEven (m : ℚ) : ⌊m⌋ ≤ nearestEven m := by
  unfold nearestEven
  split_ifs <;> omega

theorem nearestEven_intCast (k : ℤ) : nearestEven (k : ℚ) = k := by
  unfold nearestEven
  rw [Int.floor_intCast, sub_self]
  norm_num

theorem roundPos_m_bounds (q : ℚ) (hq : 0 < q) :
    (2 : ℚ) ^ (52 : ℤ) ≤ q * 2 ^ ((52 : ℤ) - qexp q) ∧
      q * 2 ^ ((52 : ℤ) - qexp q) < 2 ^ (53 : ℤ) := by
  obtain ⟨h1, h2⟩ := qexp_spec q hq
  constructor
  · calc (2 : ℚ) ^ (52 : ℤ)
        = 2 ^ qexp q * 2 ^ ((52 : ℤ) - qexp q) := by
          rw [← zpow_add₀ (two_ne_zero (α := ℚ))]
          congr 1
          ring
      _ ≤ q * 2 ^ ((52 : ℤ) - qexp q) := mul_le_mul_of_nonneg_right h1 (by positivity)
  · calc q * 2 ^ ((52 : ℤ) - qexp q)
        < 2 ^ (qexp q + 1) * 2 ^ ((52 : ℤ) - qexp q) :=
          mul_lt_mul_of_pos_right h2 (by positivity)
      _ = 2 ^ (53 : ℤ) := by
          rw [← zpow_add₀ (two_ne_zero (α := ℚ))]
          congr 1
          ring

theorem roundPos_ge (q : ℚ) (hq : 0 < q) : q - 2 ^ (qexp q - 53) ≤ roundPos q := by
  unfold roundPos
  have h := nearestEven_ge (q * 2 ^ ((52 : ℤ) - qexp q))
  have e1 : (2 : ℚ) ^ ((52 : ℤ) - qexp q) * 2 ^ (qexp q - 52) = 1 := by
    rw [← zpow_add₀ (two_ne_zero (α := ℚ))]
    norm_num
  have e2 : (1 / 2 : ℚ) * 2 ^ (qexp q - 52) = 2 ^ (qexp q - 53) := by
    rw [show (1 / 2 : ℚ) = 2 ^ (-1 : ℤ) by norm_num,
      ← zpow_add₀ (two_ne_zero (α := ℚ))]
    congr 1
    ring
  calc q - 2 ^ (qexp q - 53)
      = (q * 2 ^ ((52 : ℤ) - qexp q) - 1 / 2) * 2 ^ (qexp q - 52) := by
        rw [sub_mul, mul_assoc, e1, mul_one, e2]
    _ ≤ (nearestEven (q * 2 ^ ((52 : ℤ) - qexp q)) : ℚ) * 2 ^ (qexp q - 52) :=
        mul_le_mul_of_nonneg_right h (by positivity)

theorem roundPos_le (q : ℚ) :
    roundPos q ≤ (⌈q * 2 ^ ((52 : ℤ) - qexp q)⌉ : ℚ) * 2 ^ (qexp q - 52) := by
  unfold roundPos
  apply mul_le_mul_of_nonneg_right _ (by positivity)
  exact_mod_cast nearestEven_le_ceil _

theorem roundPos_pos (q : ℚ) (hq : 0 < q) : 0 < roundPos q := by
  unfold roundPos
  apply mul_pos _ (by positivity)
  have h1 := (roundPos_m_bounds q hq).1
  have h1' : (((2 : ℤ) ^ (52 : ℕ) : ℤ) : ℚ) ≤ q * 2 ^ ((52 : ℤ) - qexp q) := by
    push_cast
    calc ((2 : ℚ) ^ (52 : ℕ)) = (2 : ℚ) ^ ((52 : ℕ) : ℤ) := (zpow_natCast 2 52).symm
      _ ≤ q * 2 ^ ((52 : ℤ) - qexp q) := h1
  have h2 : (2 ^ (52 : ℕ) : ℤ) ≤ ⌊q * 2 ^ ((52 : ℤ) - qexp q)⌋ := Int.le_floor.mpr h1'
  have h3 : 0 < nearestEven (q * 2 ^ ((52 : ℤ) - qexp q)) :=
    lt_of_lt_of_le (by positivity) (le_trans h2 (floor_le_nearestEven _))
  exact_mod_cast h3

theorem roundPos_exact (q : ℚ) (k : ℤ)
    (hk : q * 2 ^ ((52 : ℤ) - qexp q) = (k : ℚ)) : roundPos q = q := by
  unfold roundPos
  have e1 : (2 : ℚ) ^ ((52 : ℤ) - qexp q) * 2 ^ (qexp q - 52) = 1 := by
    rw [← zpow_add₀ (two_ne_zero (α := ℚ))]
    norm_num
  rw [hk, nearestEven_intCast, ← hk, mul_assoc, e1, mul_one]

theorem zpow_toNat_eq (e : ℤ) (he : 0 ≤ e) : (2 : ℚ) ^ e = ((2 ^ e.toNat : ℤ) : ℚ) := by
  push_cast
  rw [← zpow_natCast (2 : ℚ) e.toNat, Int.toNat_of_nonneg he]

theorem roundPos_int (n : ℤ) (h1 : 1 ≤ n) (h53 : n ≤ 2 ^ 53) :
    roundPos (n : ℚ) = (n : ℚ) := by
  have hq : (0 : ℚ) < (n : ℚ) := by exact_mod_cast h1
  have hb := qexp_spec (n : ℚ) hq
  have he0 : 0 ≤ qexp (n : ℚ) := by
    by_contra hcon
    push_neg at hcon
    have hx : (2 : ℚ) ^ (qexp (n : ℚ) + 1) ≤ 2 ^ (0 : ℤ) :=
      zpow_le_zpow_right₀ one_le_two (by omega)
    rw [zpow_zero] at hx
    have h2 : (n : ℚ) < 1 := lt_of_lt_of_le hb.2 hx
    have h3 : n < 1 := by exact_mod_cast h2
    omega
  have he53 : qexp (n : ℚ) ≤ 53 := by
    by_contra hcon
    push_neg at hcon
    have hx : (2 : ℚ) ^ (54 : ℤ) ≤ 2 ^ qexp (n : ℚ) :=
      zpow_le_zpow_right₀ one_le_two (by omega)
    have h2 : (2 : ℚ) ^ (54 : ℤ) ≤ (n : ℚ) := le_trans hx hb.1
    rw [zpow_toNat_eq 54 (by norm_num)] at h2
    have h3 : (2 ^ (54 : ℤ).toNat : ℤ) ≤ n := by exact_mod_cast h2
    rw [show (54 : ℤ).toNat = 54 from rfl] at h3
    omega
  by_cases hc : qexp (n : ℚ) ≤ 52
  · apply roundPos_exact _ (n * 2 ^ ((52 - qexp (n : ℚ)).toNat))
    push_cast
    rw [← zpow_natCast (2 : ℚ) ((52 - qexp (n : ℚ)).toNat),
      Int.toNat_of_nonneg (by omega : (0 : ℤ) ≤ 52 - qexp (n : ℚ))]
  · have he : qexp (n : ℚ) = 53 := by omega
    have hx : (2 : ℚ) ^ (53 : ℤ) ≤ (n : ℚ) := he ▸ hb.1
    rw [zpow_toNat_eq 53 (by norm_num)] at hx
    have h2 : (2 ^ (53 : ℤ).toNat : ℤ) ≤ n := by exact_mod_cast hx
    rw [show (53 : ℤ).toNat = 53 from rfl] at h2
    have hn : n = 2 ^ 53 := by omega
    apply roundPos_exact _ (2 ^ 52)
    rw [he, hn]
    push_cast
    norm_num

theorem roundF64_int (n : ℤ) (h0 : 0 ≤ n) (h53 : n ≤ 2 ^ 53) : roundF64 (n : ℚ) = n := by
  rcases eq_or_lt_of_le h0 with h | hpos
  · rw [← h]
    simp [roundF64]
  · have hq : (0 : ℚ) < (n : ℚ) := by exact_mod_cast hpos
    rw [roundF64, if_neg hq.ne', if_pos hq]
    exact roundPos_int n (by omega) h53

theorem ceil_roundF64_div (t l : ℤ) (ht1 : 1 ≤ t) (ht2 : t ≤ 2 ^ 53) (hl1 : 1 ≤ l) :
    ⌈roundF64 ((t : ℚ) / (l : ℚ))⌉ = ⌈(t : ℚ) / (l : ℚ)⌉ := by
  have hlq : (0 : ℚ) < (l : ℚ) := by exact_mod_cast hl1
  have htq : (0 : ℚ) < (t : ℚ) := by exact_mod_cast ht1
  have hq : 0 < (t : ℚ) / (l : ℚ) := div_pos htq hlq
  rw [roundF64, if_neg hq.ne', if_pos hq]
  by_cases hdvd : l ∣ t
  · obtain ⟨k, hk⟩ := hdvd
    have hk1 : 1 ≤ k := by
      rcases le_or_lt 1 k with h | h
      · exact h
      · exfalso
        have : l * k ≤ 0 := mul_nonpos_iff.mpr (Or.inl ⟨by omega, by omega⟩)
        omega
    have hk53 : k ≤ 2 ^ 53 := by nlinarith
    have hq_eq : (t : ℚ) / (l : ℚ) = (k : ℚ) := by
      rw [hk]
      push_cast
      rw [mul_comm, mul_div_assoc, div_self hlq.ne', mul_one]
    rw [hq_eq, roundPos_int k hk1 hk53]
  · have hnotint : ((⌊(t : ℚ) / (l : ℚ)⌋ : ℚ)) ≠ (t : ℚ) / (l : ℚ) := by
      intro hcon
      apply hdvd
      refine ⟨⌊(t : ℚ) / (l : ℚ)⌋, ?_⟩
      have hteq : (t : ℚ) = (l : ℚ) * (⌊(t : ℚ) / (l : ℚ)⌋ : ℚ) := by
        rw [mul_comm, hcon, div_mul_cancel₀ _ hlq.ne']
      exact_mod_cast hteq
    have hql : ((⌊(t : ℚ) / (l : ℚ)⌋ : ℚ)) < (t : ℚ) / (l : ℚ) :=
      lt_of_le_of_ne (Int.floor_le _) hnotint
    have hqlt : (t : ℚ) / (l : ℚ) < (⌊(t : ℚ) / (l : ℚ)⌋ : ℚ) + 1 :=
      Int.lt_floor_add_one _
    have hn0 : 0 ≤ ⌊(t : ℚ) / (l : ℚ)⌋ := Int.floor_nonneg.mpr hq.le
    have hceilq : ⌈(t : ℚ) / (l : ℚ)⌉ = ⌊(t : ℚ) / (l : ℚ)⌋ + 1 := by
      rw [Int.ceil_eq_iff]
      constructor
      · push_cast
        linarith
      · push_cast
        linarith
    have hl1q : (1 : ℚ) ≤ (l : ℚ) := by exact_mod_cast hl1
    have hqle : (t : ℚ) / (l : ℚ) ≤ (t : ℚ) := by
      rw [div_le_iff₀ hlq]
      exact le_mul_of_one_le_right htq.le hl1q
    have hq53 : (t : ℚ) / (l : ℚ) < 2 ^ (53 : ℤ) := by
      have h2 : (t : ℚ) / (l : ℚ) ≤ ((2 ^ 53 : ℤ) : ℚ) :=
        le_trans hqle (by exact_mod_cast ht2)
      rcases lt_or_eq_of_le h2 with h | h
      · calc (t : ℚ) / (l : ℚ) < ((2 ^ 53 : ℤ) : ℚ) := h
          _ = 2 ^ (53 : ℤ) := by
              rw [zpow_toNat_eq 53 (by norm_num), show (53 : ℤ).toNat = 53 from rfl]
      · exfalso
        apply hnotint
        rw [h, Int.floor_intCast]
    have he52 : qexp ((t : ℚ) / (l : ℚ)) ≤ 52 := by
      by_contra hcon
      push_neg at hcon
      have hx : (2 : ℚ) ^ (53 : ℤ) ≤ 2 ^ qexp ((t : ℚ) / (l : ℚ)) :=
        zpow_le_zpow_right₀ one_le_two (by omega)
      exact absurd (lt_of_lt_of_le hq53
        (le_trans hx (qexp_spec _ hq).1)) (lt_irrefl _)
    have hupper : roundPos ((t : ℚ) / (l : ℚ)) ≤ ((⌊(t : ℚ) / (l : ℚ)⌋ : ℚ)) + 1 := by
      have hm : (t : ℚ) / (l : ℚ) * 2 ^ ((52 : ℤ) - qexp ((t : ℚ) / (l : ℚ))) ≤
          (((⌊(t : ℚ) / (l : ℚ)⌋ + 1) * 2 ^ ((52 - qexp ((t : ℚ) / (l : ℚ))).toNat) : ℤ) : ℚ) := by
        push_cast
        rw [← zpow_natCast (2 : ℚ) ((52 - qexp ((t : ℚ) / (l : ℚ))).toNat),
          Int.toNat_of_nonneg (by omega : (0 : ℤ) ≤ 52 - qexp ((t : ℚ) / (l : ℚ)))]
        apply mul_le_mul_of_nonneg_right hqlt.le (by positivity)
      have hceil : ⌈(t : ℚ) / (l : ℚ) * 2 ^ ((52 : ℤ) - qexp ((t : ℚ) / (l : ℚ)))⌉ ≤
          (⌊(t : ℚ) / (l : ℚ)⌋ + 1) * 2 ^ ((52 - qexp ((t : ℚ) / (l : ℚ))).toNat) :=
        Int.ceil_le.mpr hm
      calc roundPos ((t : ℚ) / (l : ℚ))
          ≤ ((⌈(t : ℚ) / (l : ℚ) * 2 ^ ((52 : ℤ) - qexp ((t : ℚ) / (l : ℚ)))⌉ : ℚ)) *
              2 ^ (qexp ((t : ℚ) / (l : ℚ)) - 52) := roundPos_le _
        _ ≤ ((((⌊(t : ℚ) / (l : ℚ)⌋ + 1) *
              2 ^ ((52 - qexp ((t : ℚ) / (l : ℚ))).toNat) : ℤ) : ℚ)) *
              2 ^ (qexp ((t : ℚ) / (l : ℚ)) - 52) := by
            apply mul_le_mul_of_nonneg_right _ (by positivity)
            exact_mod_cast hceil
        _ = ((⌊(t : ℚ) / (l : ℚ)⌋ : ℚ)) + 1 := by
            push_cast
            rw [← zpow_natCast (2 : ℚ) ((52 - qexp ((t : ℚ) / (l : ℚ))).toNat),
              Int.toNat_of_nonneg (by omega : (0 : ℤ) ≤ 52 - qexp ((t : ℚ) / (l : ℚ))),
              mul_assoc, ← zpow_add₀ (two_ne_zero (α := ℚ))]
            norm_num
    have hlower : ((⌊(t : ℚ) / (l : ℚ)⌋ : ℚ)) < roundPos ((t : ℚ) / (l : ℚ)) := by
      rcases lt_or_le (qexp ((t : ℚ) / (l : ℚ))) 0 with hen | hen
      · have hlt1 : (t : ℚ) / (l : ℚ) < 1 := by
          have hx : (2 : ℚ) ^ (qexp ((t : ℚ) / (l : ℚ)) + 1) ≤ 2 ^ (0 : ℤ) :=
            zpow_le_zpow_right₀ one_le_two (by omega)
          rw [zpow_zero] at hx
          exact lt_of_lt_of_le (qexp_spec _ hq).2 hx
        have hfl0 : ⌊(t : ℚ) / (l : ℚ)⌋ = 0 := by
          rw [Int.floor_eq_zero_iff]
          exact ⟨hq.le, hlt1⟩
        rw [hfl0]
        push_cast
        exact roundPos_pos _ hq
      · have hrrpos : (⌊(t : ℚ) / (l : ℚ)⌋ : ℚ) * (l : ℚ) < (t : ℚ) := by
          have := (lt_div_iff₀ hlq).mp hql
          linarith
        have hrr1 : 1 ≤ t - ⌊(t : ℚ) / (l : ℚ)⌋ * l := by
          have hx : ⌊(t : ℚ) / (l : ℚ)⌋ * l < t := by exact_mod_cast hrrpos
          omega
        have hn0e : (2 : ℤ) ^ ((qexp ((t : ℚ) / (l : ℚ))).toNat) ≤ ⌊(t : ℚ) / (l : ℚ)⌋ := by
          rw [Int.le_floor]
          push_cast
          rw [← zpow_natCast (2 : ℚ) ((qexp ((t : ℚ) / (l : ℚ))).toNat),
            Int.toNat_of_nonneg hen]
          exact (qexp_spec _ hq).1
        have hkey : (2 : ℚ) ^ (qexp ((t : ℚ) / (l : ℚ)) - 53) <
            (t : ℚ) / (l : ℚ) - ((⌊(t : ℚ) / (l : ℚ)⌋ : ℚ)) := by
          by_contra hcon
          push_neg at hcon
          have hqn0 : (t : ℚ) / (l : ℚ) - ((⌊(t : ℚ) / (l : ℚ)⌋ : ℚ)) =
              (((t - ⌊(t : ℚ) / (l : ℚ)⌋ * l : ℤ) : ℚ)) / (l : ℚ) := by
            push_cast
            field_simp
            ring
          rw [hqn0] at hcon
          have h2 : (((t - ⌊(t : ℚ) / (l : ℚ)⌋ * l : ℤ) : ℚ)) ≤
              2 ^ (qexp ((t : ℚ) / (l : ℚ)) - 53) * (l : ℚ) := (div_le_iff₀ hlq).mp hcon
          have h3 : (((t - ⌊(t : ℚ) / (l : ℚ)⌋ * l : ℤ) : ℚ)) *
              2 ^ ((53 : ℤ) - qexp ((t : ℚ) / (l : ℚ))) ≤ (l : ℚ) := by
            calc (((t - ⌊(t : ℚ) / (l : ℚ)⌋ * l : ℤ) : ℚ)) *
                2 ^ ((53 : ℤ) - qexp ((t : ℚ) / (l : ℚ)))
                ≤ (2 ^ (qexp ((t : ℚ) / (l : ℚ)) - 53) * (l : ℚ)) *
                  2 ^ ((53 : ℤ) - qexp ((t : ℚ) / (l : ℚ))) :=
                  mul_le_mul_of_nonneg_right h2 (by positivity)
              _ = (l : ℚ) := by
                  rw [mul_comm (2 ^ (qexp ((t : ℚ) / (l : ℚ)) - 53)) ((l : ℚ)), mul_assoc,
                    ← zpow_add₀ (two_ne_zero (α := ℚ))]
                  norm_num
          have h4 : (t - ⌊(t : ℚ) / (l : ℚ)⌋ * l) *
              2 ^ ((53 - qexp ((t : ℚ) / (l : ℚ))).toNat) ≤ l := by
            have hrw : ((((t - ⌊(t : ℚ) / (l : ℚ)⌋ * l) *
                2 ^ ((53 - qexp ((t : ℚ) / (l : ℚ))).toNat) : ℤ)) : ℚ) ≤ (l : ℚ) := by
              push_cast
              rw [← zpow_natCast (2 : ℚ) ((53 - qexp ((t : ℚ) / (l : ℚ))).toNat),
                Int.toNat_of_nonneg (by omega : (0 : ℤ) ≤ 53 - qexp ((t : ℚ) / (l : ℚ)))]
              exact_mod_cast h3
            exact_mod_cast hrw
          have hpowsplit : (2 : ℤ) ^ ((qexp ((t : ℚ) / (l : ℚ))).toNat) *
              2 ^ ((53 - qexp ((t : ℚ) / (l : ℚ))).toNat) = 2 ^ 53 := by
            rw [← pow_add]
            congr 1
            omega
          have h5 : (2 : ℤ) ^ ((qexp ((t : ℚ) / (l : ℚ))).toNat) *
              ((t - ⌊(t : ℚ) / (l : ℚ)⌋ * l) *
                2 ^ ((53 - qexp ((t : ℚ) / (l : ℚ))).toNat)) ≤
              ⌊(t : ℚ) / (l : ℚ)⌋ * l := by
            apply mul_le_mul hn0e h4 _ (by omega)
            positivity
          nlinarith [h5, hpowsplit, hrr1, ht2]
        have hge := roundPos_ge ((t : ℚ) / (l : ℚ)) hq
        linarith
    rw [hceilq, Int.ceil_eq_iff]
    constructor
    · push_cast
      push_cast at hlower
      linarith
    · push_cast
      push_cast at hupper
      linarith

theorem roundF64_tie : roundF64 ((9007199254740993 : ℚ)) = 9007199254740992 := by
  have hq : (0 : ℚ) < 9007199254740993 := by norm_num
  rw [roundF64, if_neg (by norm_num), if_pos hq]
  have he : qexp (9007199254740993 : ℚ) = 53 := by
    apply qexp_unique _ hq
    · rw [show ((53 : ℤ)) = ((53 : ℕ) : ℤ) from rfl, zpow_natCast]
      norm_num
    · rw [show ((53 : ℤ) + 1) = ((54 : ℕ) : ℤ) from rfl, zpow_natCast]
      norm_num
  rw [roundPos, he]
  have hm : (9007199254740993 : ℚ) * 2 ^ ((52 : ℤ) - 53) = 4503599627370496 + 1 / 2 := by
    rw [show ((52 : ℤ) - 53) = (-1 : ℤ) from rfl, zpow_neg, zpow_one]
    norm_num
  rw [hm]
  have hfl : ⌊(4503599627370496 + 1 / 2 : ℚ)⌋ = 4503599627370496 := by
    rw [Int.floor_eq_iff]
    constructor
    · norm_num
    · norm_num
  rw [nearestEven, hfl]
  norm_num

/-! ### Claim theorems -/

/-- Claim C2: for every query-builder state, raw parameter string and
allow-list, `parseSingleValueParams` returns exactly the state and mapping
prescribed by the spec's tokenizer algorithm (§4.1): empty raw string is a
no-op with an empty mapping; otherwise the string is split on `,`, each
clause is split on every `:`, a malformed clause (not exactly 2 parts with a
non-empty key) records a "cannot parse invalid format" error and is skipped,
an empty value is silently skipped, a disallowed key records a "column not
allowed" error and is skipped, and each surviving clause inserts
`key → value` with last-write-wins overwriting. -/
theorem parseSingleValueParams_refines_spec (db : DB) (params : Str)
    (allowedColumns : Str → Bool) :
    parseSingleValueParams db params allowedColumns =
      specSingleValueParams db params allowedColumns := by
  unfold parseSingleValueParams specSingleValueParams
  by_cases h : params = [] <;> simp [h, foldl_singleStep]

/-- Claim C3: tokenizing never aborts on an error: the errors of a raw
string's clauses are all accumulated in clause order (appended to the
pre-existing errors), and every well-formed allowed clause still gets its
key into the returned mapping; in particular `"a:1,x:2"` against `{a}`
yields `{a: "1"}` plus exactly one column-not-allowed error, and `"a:1,bad"`
yields `{a: "1"}` plus exactly one malformed-clause error. -/
theorem tokenize_accumulates_errors :
    (∀ (db : DB) (params : Str) (allowed : Str → Bool), params ≠ [] →
      (parseSingleValueParams db params allowed).1.errors =
        db.errors ++
          ((splitChar ',' params).map (specClassify allowed)).filterMap SpecOutcome.errOf ∧
      ∀ c ∈ splitChar ',' params, ∀ k v, specClassify allowed c = .insert k v →
        mapLookup k (parseSingleValueParams db params allowed).2 ≠ none) ∧
    parseSingleValueParams DB.empty "a:1,x:2".toList allowA =
      ({ errors := [errNotAllowed], wheres := [], orders := [] },
       [("a".toList, "1".toList)]) ∧
    parseSingleValueParams DB.empty "a:1,bad".toList allowA =
      ({ errors := [errInvalidFormat], wheres := [], orders := [] },
       [("a".toList, "1".toList)]) := by
  refine ⟨fun db params allowed h => ?_, by decide, by decide⟩
  have hrw : parseSingleValueParams db params allowed =
      ({ db with errors := db.errors ++
          (((splitChar ',' params).map (specClassify allowed)).filterMap SpecOutcome.errOf) },
       ((splitChar ',' params).map (specClassify allowed)).foldl SpecOutcome.apply []) := by
    unfold parseSingleValueParams
    simp [h, foldl_singleStep]
  refine ⟨by rw [hrw], fun c hc k v hkv => ?_⟩
  rw [hrw]
  exact mapLookup_foldl_apply _ _ _
    (Or.inl ⟨v, hkv ▸ List.mem_map_of_mem (specClassify allowed) hc⟩)

/-- Closed witness for claim C3, instantiating the universally quantified
part at the raw string `"a:1"` and allow-list `{a}`. -/
theorem tokenize_accumulates_errors_witness :
    (parseSingleValueParams DB.empty "a:1".toList allowA).1.errors =
      DB.empty.errors ++
        ((splitChar ',' "a:1".toList).map (specClassify allowA)).filterMap SpecOutcome.errOf :=
  (tokenize_accumulates_errors.1 DB.empty "a:1".toList allowA (by decide)).1

/-- Claim C7: the empty-value silent skip happens before the allow-list
check: a clause `key ++ ":"` with a non-empty key leaves the query-builder
state (in particular its error list) and the mapping completely untouched,
for an arbitrary allow-list — even one rejecting the key; in particular
tokenizing `"a:"` against `{a}` yields an empty mapping and zero errors. -/
theorem empty_value_skip_before_allowlist :
    (∀ (db : DB) (m : List (Str × Str)) (allowed : Str → Bool) (key : Str),
      key ≠ [] → ':' ∉ key →
      singleStep allowed (db, m) (key ++ [':']) = (db, m)) ∧
    parseSingleValueParams DB.empty "a:".toList allowA = (DB.empty, []) := by
  refine ⟨fun db m allowed key hk hc => ?_, by decide⟩
  unfold singleStep
  rw [splitChar_append_sep ':' key hc]
  simp [hk]

/-- Closed witness for claim C7: the clause `"x:"` is skipped silently even
under the allow-list that rejects every column. -/
theorem empty_value_skip_before_allowlist_witness :
    singleStep (fun _ => false) (DB.empty, []) ("x".toList ++ [':']) = (DB.empty, []) :=
  empty_value_skip_before_allowlist.1 DB.empty [] (fun _ => false) "x".toList
    (by decide) (by decide)

/-- Claim C8: `parseSortBy` adds an ordering clause exactly for the values
`"asc"` and `"desc"`, and for any other value records an "order not asc or
desc" error and adds no ordering clause; in particular
`"name:asc,age:desc"` against `{name, age}` produces the two ordering
clauses and no error, and `"name:upward"` produces one invalid-sort-
direction error and no ordering clause. -/
theorem sortBy_only_asc_desc :
    (∀ (db : DB) (key v : Str), v ≠ "asc".toList → v ≠ "desc".toList →
      sortStep db (key, v) = db.addError errOrderNotAscDesc) ∧
    (∀ (db : DB) (key : Str),
      sortStep db (key, "asc".toList) = db.addOrder (parseColumn key ++ " ASC".toList) ∧
      sortStep db (key, "desc".toList) = db.addOrder (parseColumn key ++ " DESC".toList)) ∧
    parseSortBy "name:asc,age:desc".toList DB.empty allowNameAge =
      { errors := [], wheres := [],
        orders := ["\"name\" ASC".toList, "\"age\" DESC".toList] } ∧
    parseSortBy "name:upward".toList DB.empty allowNameAge =
      { errors := [errOrderNotAscDesc], wheres := [], orders := [] } := by
  refine ⟨fun db key v h1 h2 => ?_, fun db key => ⟨?_, ?_⟩, by decide, by decide⟩
  · unfold sortStep
    split_ifs with hd
    · exact absurd hd h2
    · rfl
  · simp [sortStep]
  · simp [sortStep]

/-- Closed witness for claim C8: the sort direction `"upward"` records the
error and no ordering clause. -/
theorem sortBy_only_asc_desc_witness :
    sortStep DB.empty ("name".toList, "upward".toList) = DB.empty.addError errOrderNotAscDesc :=
  sortBy_only_asc_desc.1 DB.empty "name".toList "upward".toList (by decide) (by decide)

/-- Claim C6: the spec's quoting equations for `parseColumn`:
`parseColumn ""` is the empty quoted token; `parseColumn "a.b"` is two
quoted segments joined by `.`; `parseColumn "a..b"` preserves three segments
with the middle one empty-quoted; and `parseColumn "  a . b  "` equals
`parseColumn "a.b"`. -/
theorem parseColumn_equations :
    parseColumn "".toList = "\"\"".toList ∧
    parseColumn "a.b".toList = "\"a\".\"b\"".toList ∧
    parseColumn "a..b".toList = "\"a\".\"\".\"b\"".toList ∧
    parseColumn "  a . b  ".toList = parseColumn "a.b".toList := by
  refine ⟨by decide, by decide, by decide, by decide⟩

/-- Claim C9: in Go 64-bit `int` arithmetic, `Offset page limit` equals
`(page - 1) * limit` whenever `page - 1` and the product stay in range
(page is 1-indexed), `Offset 1 10 = 0`, `Offset 3 10 = 20`, and a page of 0
or less produces an offset of 0 or less — the function does not guard
against it. -/
theorem offset_formula :
    (∀ page limit : ℤ,
      -(2 ^ 63) ≤ page - 1 → page - 1 < 2 ^ 63 →
      -(2 ^ 63) ≤ (page - 1) * limit → (page - 1) * limit < 2 ^ 63 →
      Offset page limit = (page - 1) * limit) ∧
    Offset 1 10 = 0 ∧ Offset 3 10 = 20 ∧
    (∀ page limit : ℤ, page ≤ 0 → 0 ≤ limit → 2 - 2 ^ 63 ≤ page →
      -(2 ^ 63) ≤ (page - 1) * limit →
      Offset page limit ≤ 0) := by
  have key : ∀ page limit : ℤ,
      -(2 ^ 63) ≤ page - 1 → page - 1 < 2 ^ 63 →
      -(2 ^ 63) ≤ (page - 1) * limit → (page - 1) * limit < 2 ^ 63 →
      Offset page limit = (page - 1) * limit := by
    intro page limit h1 h2 h3 h4
    unfold Offset
    rw [wrap64_id _ h1 h2, wrap64_id _ h3 h4]
  refine ⟨key, by decide, by decide, fun page limit hp hl hp2 hr => ?_⟩
  have hprod : (page - 1) * limit ≤ 0 :=
    mul_nonpos_iff.mpr (Or.inr ⟨by omega, hl⟩)
  have h4 : (page - 1) * limit < 2 ^ 63 := lt_of_le_of_lt hprod (by norm_num)
  rw [key page limit (by omega) (by omega) hr h4]
  exact hprod

/-- Closed witness for claim C9, instantiating the in-range case at
`page = 3`, `limit = 10`. -/
theorem offset_formula_witness : Offset 3 10 = (3 - 1) * 10 :=
  offset_formula.1 3 10 (by decide) (by decide) (by decide) (by decide)

/-- Claim C1, counterexample: the input `"created_at:onlyone"` against the
allow-list `{created_at}` does not keep executing to a BETWEEN predicate:
`parseSearchBetween` records the single "not exactly two values" error and
then panics on the out-of-range index `value[1]` (flag `true`), leaving the
WHERE list empty — no BETWEEN predicate is added. -/
theorem between_onlyone_panics :
    parseSearchBetween rfc3339Never "created_at:onlyone".toList DB.empty allowCreatedAt =
      ({ errors := [errNotTwoValues], wheres := [], orders := [] }, true) := by
  decide

/-- Claim C1, amended: a between clause whose parsed value sequence has
length at least 2 but different from 2 records the "not exactly two values"
error and still attempts the bind (a BETWEEN predicate is added and
execution continues); a sequence with fewer than two values records the
error and then panics on an out-of-range slice index, so no predicate is
added — in particular `"created_at:onlyone"` records exactly one such error
and panics, for every behaviour of the RFC-3339 parser. -/
theorem between_two_values_required :
    (∀ (rfc : Str → Bool) (db : DB) (key : Str) (vals : List Str),
      vals.length ≠ 2 →
      errNotTwoValues ∈ (betweenStep rfc db (key, vals)).1.errors ∧
      (2 ≤ vals.length →
        (betweenStep rfc db (key, vals)).2 = false ∧
        (betweenStep rfc db (key, vals)).1.wheres =
          db.wheres ++ [parseColumn key ++ " BETWEEN ? AND ?".toList]) ∧
      (vals.length < 2 →
        (betweenStep rfc db (key, vals)).2 = true ∧
        (betweenStep rfc db (key, vals)).1.errors = db.errors ++ [errNotTwoValues] ∧
        (betweenStep rfc db (key, vals)).1.wheres = db.wheres)) ∧
    (∀ rfc : Str → Bool,
      parseSearchBetween rfc "created_at:onlyone".toList DB.empty allowCreatedAt =
        ({ errors := [errNotTwoValues], wheres := [], orders := [] }, true)) := by
  constructor
  · intro rfc db key vals hlen
    rcases vals with _ | ⟨v0, _ | ⟨v1, rest⟩⟩
    · have e : betweenStep rfc db (key, []) = (db.addError errNotTwoValues, true) := rfl
      rw [e]
      exact ⟨by simp [DB.addError], fun h => absurd h (by simp),
        fun _ => ⟨rfl, by simp [DB.addError], rfl⟩⟩
    · have e : betweenStep rfc db (key, [v0]) = (db.addError errNotTwoValues, true) := rfl
      rw [e]
      exact ⟨by simp [DB.addError], fun h => absurd h (by simp),
        fun _ => ⟨rfl, by simp [DB.addError], rfl⟩⟩
    · have e : betweenStep rfc db (key, v0 :: v1 :: rest) =
          (((if rfc v0 && rfc v1 then db.addError errNotTwoValues
             else (db.addError errNotTwoValues).addError errInvalidDateTime).addWhere
            (parseColumn key ++ " BETWEEN ? AND ?".toList)), false) := by
        unfold betweenStep
        rw [if_pos hlen]
        rfl
      rw [e]
      refine ⟨?_, fun _ => ⟨rfl, ?_⟩, fun h => absurd h (by simp)⟩
      · split_ifs <;> simp [DB.addError, DB.addWhere]
      · split_ifs <;> simp [DB.addError, DB.addWhere]
  · intro rfc
    rfl

/-- Closed witness for claim C1 (amended), exercising the length-3 branch:
the error is recorded and the BETWEEN predicate is still added. -/
theorem between_two_values_required_witness :
    errNotTwoValues ∈
      (betweenStep rfc3339Never DB.empty
        ("a".toList, ["x".toList, "y".toList, "z".toList])).1.errors :=
  (between_two_values_required.1 rfc3339Never DB.empty "a".toList
    ["x".toList, "y".toList, "z".toList] (by decide)).1

/-- Claim C5: identifier quoting is idempotent: for every non-empty
single-segment identifier `x` (no `.` in `x`),
`parseColumn (parseColumn x) = parseColumn x` — quoting an already-quoted
identifier never double-quotes. -/
theorem parseColumn_idempotent (x : Str) (hne : x ≠ []) (hdot : '.' ∉ x) :
    parseColumn (parseColumn x) = parseColumn x := by
  clear hne
  rw [parseColumn_single x hdot]
  by_cases h : goTrimSpace (removeQuotes (goTrimSpace x)) = []
  · rw [if_pos h]
    decide
  · rw [if_neg h]
    set p := goTrimSpace (removeQuotes (goTrimSpace x)) with hp
    have hq : '"' ∉ p := fun hm =>
      not_quote_mem_removeQuotes _ (mem_of_mem_goTrimSpace '"' _ hm)
    have hd2 : '.' ∉ p := fun hm =>
      hdot (mem_of_mem_goTrimSpace '.' x
        (mem_of_mem_removeQuotes '.' _ (mem_of_mem_goTrimSpace '.' _ hm)))
    have htp : goTrimSpace p = p := by
      rw [hp]
      exact goTrimSpace_idem _
    have hd3 : '.' ∉ ('"' :: (p ++ ['"'])) := by
      intro hm
      rcases List.mem_cons.mp hm with hc | hc
      · exact absurd hc (by decide)
      · rcases List.mem_append.mp hc with hc | hc
        · exact hd2 hc
        · exact absurd hc (by decide)
    rw [parseColumn_single _ hd3, goTrimSpace_quote p, removeQuotes_quote p hq, htp,
      if_neg h]

/-- Closed witness for claim C5, at the identifier `"a"`. -/
theorem parseColumn_idempotent_witness :
    parseColumn (parseColumn "a".toList) = parseColumn "a".toList :=
  parseColumn_idempotent "a".toList (by decide) (by decide)

/-- Claim C10: for every input string, the output of `parseColumn` is a
`.`-joined sequence of segments, each of the exact shape `'"' :: s ++ ['"']`
where the segment body `s` contains no double-quote character: every
input-supplied quote is removed before re-quoting, so no quote can appear
inside or break out of a quoted segment. -/
theorem parseColumn_output_quoted (col : Str) :
    ∃ ss : List Str, (∀ s ∈ ss, '"' ∉ s) ∧
      parseColumn col =
        List.intercalate ['.'] (ss.map (fun s => '"' :: (s ++ ['"']))) := by
  by_cases h : goTrimSpace col = []
  · refine ⟨[[]], by simp, ?_⟩
    simp only [parseColumn, if_pos h]
    rfl
  · refine ⟨(splitChar '.' (removeQuotes (goTrimSpace col))).map goTrimSpace, ?_, ?_⟩
    · intro s hs
      rw [List.mem_map] at hs
      obtain ⟨q, hq, rfl⟩ := hs
      intro hmem
      exact not_quote_mem_removeQuotes _
        (mem_of_mem_splitChar '.' _ q hq '"' (mem_of_mem_goTrimSpace '"' q hmem))
    · simp only [parseColumn, if_neg h, List.map_map]
      congr 1
      apply List.map_congr_left
      intro p hp
      simp only [Function.comp]
      split_ifs with hte
      · rw [hte]
        rfl
      · rfl

/-- Claim C4, counterexample: the float64 pipeline of `Count` is not the
exact mathematical ceiling for every `total ≥ 0, limit > 0`: at
`total = 2^53 + 1, limit = 1` the int-to-float64 conversion rounds to even
(`2^53`), so `Count` returns `2^53` while the exact ceiling is `2^53 + 1`. -/
theorem count_not_exact_ceiling :
    Count (2 ^ 53 + 1) 1 ≠ ⌈((2 ^ 53 + 1 : ℤ) : ℚ) / ((1 : ℤ) : ℚ)⌉ ∧
    Count (2 ^ 53 + 1) 1 = 2 ^ 53 := by
  have hone : roundF64 ((1 : ℤ) : ℚ) = ((1 : ℤ) : ℚ) := roundF64_int 1 (by norm_num) (by norm_num)
  have hc : Count (2 ^ 53 + 1) 1 = 2 ^ 53 := by
    unfold Count f64Div f64Ceil intOfF64 float64OfInt
    rw [hone]
    rw [show (((2 ^ 53 + 1 : ℤ)) : ℚ) = (9007199254740993 : ℚ) by norm_num]
    rw [show (((1 : ℤ)) : ℚ) = (1 : ℚ) by norm_num]
    rw [roundF64_tie, div_one]
    have h9 : roundF64 ((9007199254740992 : ℚ)) = 9007199254740992 := by
      have h := roundF64_int 9007199254740992 (by norm_num) (by norm_num)
      push_cast at h
      exact h
    rw [h9]
    rw [show ((9007199254740992 : ℚ)) = ((9007199254740992 : ℤ) : ℚ) by norm_num,
      Int.ceil_intCast]
    rw [if_pos (by positivity), Int.floor_intCast]
    norm_num
  refine ⟨?_, hc⟩
  rw [hc]
  rw [show (((1 : ℤ)) : ℚ) = (1 : ℚ) by norm_num, div_one, Int.ceil_intCast]
  omega

/-- Claim C4, amended: for all `0 ≤ total ≤ 2^53` and `0 < limit ≤ 2^53`,
`Count total limit` — computed, as the code does, by float64 division
followed by `math.Ceil` and an int conversion — equals the exact
mathematical ceiling of `total / limit`; in particular `Count 0 10 = 0`,
`Count 1 10 = 1`, `Count 21 10 = 3` and `Count 20 10 = 2`.  Beyond `2^53`
float64 rounding breaks exactness. -/
theorem count_eq_ceiling_bounded :
    (∀ t l : ℤ, 0 ≤ t → t ≤ 2 ^ 53 → 0 < l → l ≤ 2 ^ 53 →
      Count t l = ⌈(t : ℚ) / (l : ℚ)⌉) ∧
    Count 0 10 = 0 ∧ Count 1 10 = 1 ∧ Count 21 10 = 3 ∧ Count 20 10 = 2 := by
  have key : ∀ t l : ℤ, 0 ≤ t → t ≤ 2 ^ 53 → 0 < l → l ≤ 2 ^ 53 →
      Count t l = ⌈(t : ℚ) / (l : ℚ)⌉ := by
    intro t l h0 h1 h2 h3
    unfold Count f64Div f64Ceil intOfF64 float64OfInt
    rw [roundF64_int t h0 h1, roundF64_int l h2.le h3]
    rcases eq_or_lt_of_le h0 with ht0 | ht0
    · rw [← ht0]
      norm_num [roundF64]
    · have hceil := ceil_roundF64_div t l (by omega) h1 (by omega)
      rw [hceil]
      have hpos : 0 < ⌈(t : ℚ) / (l : ℚ)⌉ := Int.ceil_pos.mpr
        (div_pos (by exact_mod_cast ht0) (by exact_mod_cast h2))
      rw [if_pos (by exact_mod_cast hpos.le), Int.floor_intCast]
  refine ⟨key, ?_, ?_, ?_, ?_⟩
  · rw [key 0 10 (by norm_num) (by norm_num) (by norm_num) (by norm_num)]
    norm_num
  · rw [key 1 10 (by norm_num) (by norm_num) (by norm_num) (by norm_num)]
    rw [Int.ceil_eq_iff]
    constructor
    · push_cast
      norm_num
    · push_cast
      norm_num
  · rw [key 21 10 (by norm_num) (by norm_num) (by norm_num) (by norm_num)]
    rw [Int.ceil_eq_iff]
    constructor
    · push_cast
      norm_num
    · push_cast
      norm_num
  · rw [key 20 10 (by norm_num) (by norm_num) (by norm_num) (by norm_num)]
    rw [Int.ceil_eq_iff]
    constructor
    · push_cast
      norm_num
    · push_cast
      norm_num

/-- Closed witness for claim C4 (amended), at `total = 21`, `limit = 10`. -/
theorem count_eq_ceiling_bounded_witness :
    Count 21 10 = ⌈((21 : ℤ) : ℚ) / ((10 : ℤ) : ℚ)⌉ :=
  count_eq_ceiling_bounded.1 21 10 (by norm_num) (by norm_num) (by norm_num) (by norm_num)

end ApiUtils
